import Mathlib

set_option maxHeartbeats 2000000
set_option maxRecDepth 4000

/-!
Shallow embedding of the chat ingestion and processing pipeline of
`src/index.mts`: the dedup/filter gate, the sliding history window, the
job queue with its sequential worker, the forwarder registry with
failover, and the per-job AI/TTS/broadcast pipeline.  Machine effects
(the HTTP AI call, the TTS call, the registry file) are modelled as
explicit parameters and returned values; the single-threaded event-loop
interleaving of the worker is modelled as a step relation.
-/

/-- A single chat turn: one message plus its author
(`{ username: string, message: string }` in the source). -/
structure ChatTurn where
  username : String
  message : String
deriving DecidableEq

/-- Whitespace recognised by the model of JavaScript `String.trim` (the
ASCII whitespace characters; the claims only involve these). -/
def isWsChar (c : Char) : Bool :=
  c == ' ' || c == '\t' || c == '\n' || c == '\r' || c == '\x0b' || c == '\x0c'

/-- `replace(/</g, "&lt;").replace(/>/g, "&gt;")` from `processChat`.
The first replacement introduces no `>`, so the two sequential global
replacements act like one simultaneous character-wise replacement. -/
def escapeLtGt : List Char → List Char
  | [] => []
  | c :: cs =>
    (if c = '<' then ['&', 'l', 't', ';']
     else if c = '>' then ['&', 'g', 't', ';']
     else [c]) ++ escapeLtGt cs

/-- JavaScript `String.trim`: drop whitespace from both ends. -/
def trimChars (cs : List Char) : List Char :=
  ((cs.dropWhile isWsChar).reverse.dropWhile isWsChar).reverse

/-- The normalization applied to `username` and `userMessage` at the top
of `processChat`: HTML-escape `<` and `>`, then trim. -/
def clean (s : String) : String :=
  String.mk (trimChars (escapeLtGt s.data))

/-- JavaScript `toLowerCase` (character-wise; ASCII suffices here). -/
def lowerStr (s : String) : String :=
  String.mk (s.data.map Char.toLower)

/-- A `\w` character of the JavaScript regex `/^\w+\.\w+$/`. -/
def isWordChar (c : Char) : Bool :=
  c.isAlphanum || c == '_'

/-- The test `/^\w+\.\w+$/.test(msg)`: a word-character run, a dot,
another word-character run, and nothing else.  Since `.` is not a word
character the decomposition is unique, so the regex match is equivalent
to: the maximal leading word run is nonempty, the next character is `.`,
and the nonempty remainder is all word characters. -/
def filenameLike (cs : List Char) : Bool :=
  match cs.dropWhile isWordChar with
  | c :: rest =>
    c == '.' && !(cs.takeWhile isWordChar).isEmpty && !rest.isEmpty && rest.all isWordChar
  | [] => false

/-- `needle` occurs at the start of the second list. -/
def leadsWith : List Char → List Char → Bool
  | [], _ => true
  | _ :: _, [] => false
  | a :: as, b :: bs => a == b && leadsWith as bs

/-- JavaScript `String.includes`: `needle` occurs somewhere in the haystack. -/
def hasSub (needle : List Char) : List Char → Bool
  | [] => needle.isEmpty
  | c :: rest => leadsWith needle (c :: rest) || hasSub needle rest

/-- The `negativeKeywords` array in `processChat`. -/
def negativeKeywords : List String := ["scam", "@", "fake"]

/-- The two length conjuncts of the filter:
`cleanUserMessage.length <= 200 && cleanUserMessage.length >= 2`. -/
def lengthCheck (cm : String) : Bool :=
  decide (cm.length ≤ 200) && decide (2 ≤ cm.length)

/-- The acceptance condition of the dedup/filter gate in `processChat`
(the big `if`): identifier not already seen, not filename-like, no
negative keyword in the lowercased message, message truthy (nonempty),
and length within bounds. -/
def gateAccepts (seen : List String) (cleanU cleanM : String) : Bool :=
  !(seen.contains (cleanU ++ cleanM)) &&
  !(filenameLike cleanM.data) &&
  !(negativeKeywords.any (fun k => hasSub k.data (lowerStr cleanM).data)) &&
  !(cleanM == "") &&
  lengthCheck cleanM

/-- `alreadyExistChats.add(id)` followed by the capacity check: if the
set grows beyond 1000 entries, the oldest (first-inserted) entry is
deleted.  A JavaScript `Set` iterates in insertion order, so it is
modelled as an insertion-ordered duplicate-free list. -/
def seenAdd (seen : List String) (x : String) : List String :=
  if 1000 < (if seen.contains x then seen else seen ++ [x]).length
  then (if seen.contains x then seen else seen ++ [x]).tail
  else (if seen.contains x then seen else seen ++ [x])

/-- One record of `forwarders.json`. -/
structure Forwarder where
  url : String
  isUsageLimited : Bool
  selected : Bool
deriving DecidableEq

/-- `getSelectedForwarderUrl`: find the entry marked `selected` and
return its URL if that URL is truthy (nonempty). -/
def getSelectedForwarderUrl (fs : List Forwarder) : Option String :=
  match fs.find? (fun f => f.selected) with
  | some f => if f.url == "" then none else some f.url
  | none => none

/-- Step 1 of `rotateToNextForwarder`: `findIndex(f => f.selected)` and,
if found, set `selected = false, isUsageLimited = true` on that entry. -/
def deactivateSelected : List Forwarder → List Forwarder
  | [] => []
  | f :: fs =>
    if f.selected then { f with selected := false, isUsageLimited := true } :: fs
    else f :: deactivateSelected fs

/-- Steps 2–3 of `rotateToNextForwarder`: `findIndex(f => !f.isUsageLimited)`
on the updated array and, if found, set `selected = true` there and
return its URL. -/
def activateFirstFree : List Forwarder → List Forwarder × Option String
  | [] => ([], none)
  | f :: fs =>
    if f.isUsageLimited then
      (f :: (activateFirstFree fs).1, (activateFirstFree fs).2)
    else ({ f with selected := true } :: fs, some f.url)

/-- `rotateToNextForwarder`: deactivate the selected entry, promote the
first non-limited entry, and persist the whole updated list (the first
component is what is written back to `forwarders.json` in every case). -/
def rotateToNextForwarder (fs : List Forwarder) : List Forwarder × Option String :=
  activateFirstFree (deactivateSelected fs)

/-- Outcome of the opaque AI relay call, covering the branches of
`processChat`: the outer `catch` (network error), the
`data.candidates?...` structure check failing, the inner `JSON.parse`
throwing, or a parsed `{ content, emotion }` body (each field possibly
`null`). -/
inductive AiOutcome where
  | networkError
  | badStructure
  | unparsable
  | parsed (content : Option String) (emotion : Option String)

/-- Fallback reply used by the outer catch and the `JSON.parse` catch. -/
def fallbackErrorText : String := "There was an error processing that request."

/-- Fallback reply used when the response structure is unexpected. -/
def fallbackSorryText : String := "Sorry, I couldn't generate a response."

/-- The `transformFormates` emotion-to-speech-tag table. -/
def transformFormates (e : String) : Option String :=
  if e == "happy" then some "[excited]"
  else if e == "sad" then some "[sad]"
  else if e == "relaxed" then some "[whispers]"
  else if e == "surprised" then some "[surprised]"
  else none

/-- `aiRes.emotion ? transformFormates[aiRes.emotion.toLowerCase()] : ''`:
a `none`/empty emotion yields no tag, otherwise the table is consulted
(an unknown emotion also yields no tag, since `undefined` is falsy). -/
def emotionTag (emo : Option String) : Option String :=
  match emo with
  | none => none
  | some e => if e == "" then none else transformFormates (lowerStr e)

/-- `textWithEmotion = emotionTag ? emotionTag + " " + content : content`. -/
def textWithEmotion (content : String) (tag : Option String) : String :=
  match tag with
  | some t => t ++ " " ++ content
  | none => content

/-- The payload sent to every open viewer client at the end of
`processChat`. -/
structure Broadcast where
  username : String
  userMessage : String
  message : Option String
  audio : Option String
  emotion : Option String
deriving DecidableEq

/-- A broadcast payload whose AI-derived fields are all null — the state
of the local variables `aiRes` and `audioBuffer` when the filter
suppressed the message. -/
def nullBroadcast (cu cm : String) : Broadcast :=
  { username := cu, userMessage := cm, message := none, audio := none, emotion := none }

/-- Result of one `processChat` run: the payload broadcast to viewers
(`none` exactly on the early `return` when no forwarder URL exists), the
updated dedup set, and the updated forwarder registry. -/
structure ProcResult where
  broadcast : Option Broadcast
  seen : List String
  forwarders : List Forwarder
deriving DecidableEq

/-- `processChat(username, userMessage, history)`, with the dedup set,
the forwarder registry, the AI call outcome and the TTS call modelled as
explicit parameters.  `tts` returns the base64 audio on success and
`none` when the ElevenLabs call throws; it is applied to the text the
source hands to TTS.  When the AI `content` is `null` the TTS text is
`null` and no audio results, matching a failing synthesis call. -/
def processChat (username userMessage : String) (history : List ChatTurn)
    (seen : List String) (fs : List Forwarder)
    (ai : AiOutcome) (tts : String → Option String) : ProcResult :=
  let cleanUsername := clean username
  let cleanUserMessage := clean userMessage
  let messageIdentifier := cleanUsername ++ cleanUserMessage
  if gateAccepts seen cleanUsername cleanUserMessage then
    let seen1 := seenAdd seen messageIdentifier
    match getSelectedForwarderUrl fs with
    | none => { broadcast := none, seen := seen1, forwarders := fs }
    | some _ =>
      let aiStep : (Option String × Option String) × List Forwarder :=
        match ai with
        | .networkError => ((some fallbackErrorText, none), (rotateToNextForwarder fs).1)
        | .unparsable => ((some fallbackErrorText, none), (rotateToNextForwarder fs).1)
        | .badStructure => ((some fallbackSorryText, none), (rotateToNextForwarder fs).1)
        | .parsed c e => ((c, e), fs)
      let audio : Option String :=
        match aiStep.1.1 with
        | some c => tts (textWithEmotion c (emotionTag aiStep.1.2))
        | none => none
      let payload : Broadcast :=
        { username := cleanUsername, userMessage := cleanUserMessage,
          message := aiStep.1.1, audio := audio, emotion := aiStep.1.2 }
      { broadcast := some payload, seen := seen1, forwarders := aiStep.2 }
  else
    let payload : Broadcast :=
      { username := cleanUsername, userMessage := cleanUserMessage,
        message := none, audio := none, emotion := none }
    { broadcast := some payload, seen := seen, forwarders := fs }

/-- `chatHistory.push(entry); if (chatHistory.length > 100) chatHistory.shift()`. -/
def pushHistory (h : List ChatTurn) (t : ChatTurn) : List ChatTurn :=
  if 100 < (h ++ [t]).length then (h ++ [t]).tail else h ++ [t]

/-- The mutable state touched by the `newMessage` feed handler. -/
structure IngestState where
  chatHistory : List ChatTurn
  chatQueue : List ChatTurn
deriving DecidableEq

/-- `(data.username === data.userAddress) ? data.username.slice(0, 6) : data.username`. -/
def finalName (username userAddress : String) : String :=
  if username == userAddress then String.mk (username.data.take 6) else username

/-- The `socket.on('newMessage', ...)` handler: drop events missing a
required field (modelled as an empty string, which is falsy), otherwise
append the turn to the history window and enqueue it. -/
def handleNewMessage (st : IngestState) (username message userAddress : String) :
    IngestState :=
  if username == "" || message == "" || userAddress == "" then st
  else
    { chatHistory := pushHistory st.chatHistory
        { username := finalName username userAddress, message := message },
      chatQueue := st.chatQueue ++
        [{ username := finalName username userAddress, message := message }] }

/-- Per-room server state reset by the `/new-chat` endpoint. -/
structure CoreState where
  chatHistory : List ChatTurn
  chatQueue : List ChatTurn
  seen : List String
  currentMintID : Option String
deriving DecidableEq

/-- The room-switch part of `POST /new-chat`: a missing `mintID` is
rejected (state unchanged); `"none"` (case-insensitive) stops listening;
any other id becomes the new room.  In every non-rejected case the
history, the queue and the dedup set are cleared. -/
def switchRoom (st : CoreState) (mintID : String) : CoreState :=
  if mintID == "" then st
  else if lowerStr mintID == "none" then
    { chatHistory := [], chatQueue := [], seen := [], currentMintID := none }
  else
    { chatHistory := [], chatQueue := [], seen := [], currentMintID := some mintID }

/-- State of the job queue and its sequential worker.  `active` holds
the jobs shifted off the queue whose pipeline has not yet finished
(`broadcasts` records finished pipelines in completion order), and
`arrived` is the ghost log of all enqueued turns in arrival order. -/
structure QState where
  chatQueue : List ChatTurn
  isProcessing : Bool
  active : List ChatTurn
  broadcasts : List ChatTurn
  arrived : List ChatTurn
deriving DecidableEq

/-- Event-loop steps of the queue/worker code.  `enqueue` is
`chatQueue.push(entry)` (any caller).  `start` is the non-returning path
of `processQueue`: it requires `isProcessing` to be false (otherwise
`processQueue` returns immediately) and a nonempty queue, sets the lock
and shifts the head job.  `finish` is the completion of `processChat`
for the active job — its broadcast runs synchronously with the `finally`
block that releases the lock, since no `await` separates them. -/
inductive QStep : QState → QState → Prop where
  | enqueue (s : QState) (t : ChatTurn) :
      QStep s { chatQueue := s.chatQueue ++ [t], isProcessing := s.isProcessing,
                active := s.active, broadcasts := s.broadcasts,
                arrived := s.arrived ++ [t] }
  | start (s : QState) (t : ChatTurn) (q : List ChatTurn) :
      s.isProcessing = false → s.chatQueue = t :: q →
      QStep s { chatQueue := q, isProcessing := true, active := s.active ++ [t],
                broadcasts := s.broadcasts, arrived := s.arrived }
  | finish (s : QState) (t : ChatTurn) (a : List ChatTurn) :
      s.active = t :: a →
      QStep s { chatQueue := s.chatQueue, isProcessing := false, active := a,
                broadcasts := s.broadcasts ++ [t], arrived := s.arrived }

/-- Initial worker state: empty queue, lock free. -/
def QInit : QState :=
  { chatQueue := [], isProcessing := false, active := [], broadcasts := [], arrived := [] }

/-- States reachable from `QInit` by event-loop steps. -/
inductive QReachable : QState → Prop where
  | init : QReachable QInit
  | step (s s' : QState) : QReachable s → QStep s s' → QReachable s'

/-- A 32-character alphabet of harmless message characters: not `<`, `>`,
`.`, `@`, not whitespace, unchanged by `toLower`, and distinct. -/
def alpha : List Char :=
  ['b', 'c', 'd', 'f', 'g', 'h', 'j', 'k', 'l', 'm', 'n', 'p', 'q', 'r', 's', 't',
   'v', 'w', 'x', 'y', 'z', '0', '1', '2', '3', '4', '5', '6', '7', '8', '9', '!']

/-- A family of three-character messages, pairwise distinct for indices
below 1024, each of which passes every non-dedup filter rule. -/
def evilMsg (i : Nat) : String :=
  String.mk ['q', alpha.get ⟨i / 32 % 32, Nat.mod_lt _ (by omega)⟩,
             alpha.get ⟨i % 32, Nat.mod_lt _ (by omega)⟩]

/-- Fixture: a registry with one selected, non-limited forwarder. -/
def demoForwarders : List Forwarder :=
  [{ url := "x", isUsageLimited := false, selected := true }]

/-- Fixture: an AI call that returns a well-formed parsed body. -/
def demoAi : AiOutcome := .parsed (some "ok") (some "happy")

/-- Fixture: a TTS call that always fails. -/
def demoTts : String → Option String := fun _ => none

/-- One submission of message `m` by user `"u"`, projected onto the
evolution of the dedup set (`alreadyExistChats`). -/
def procStep (fs : List Forwarder) (ai : AiOutcome) (tts : String → Option String)
    (seen : List String) (m : String) : List String :=
  (processChat "u" m [] seen fs ai tts).seen

/-- Fixture: a worker state in which one turn has been enqueued. -/
def qDemo : QState :=
  { chatQueue := [{ username := "u", message := "hi" }], isProcessing := false,
    active := [], broadcasts := [], arrived := [{ username := "u", message := "hi" }] }

/-- Fixture: a core state listening to a room, with one recorded
identifier. -/
def demoRoomState : CoreState :=
  { chatHistory := [], chatQueue := [], seen := ["uhi"], currentMintID := some "room1" }

/-- Neither end of the character list is whitespace. -/
def noEdgeWs (cs : List Char) : Bool :=
  (match cs.head? with
   | some c => !isWsChar c
   | none => true) &&
  (match cs.getLast? with
   | some c => !isWsChar c
   | none => true)


/-! ### Generic helper lemmas -/

theorem contains_iff_mem_str (l : List String) (x : String) :
    l.contains x = true ↔ x ∈ l := by
  simp [List.contains, List.elem_iff]

theorem contains_false_iff_not_mem_str (l : List String) (x : String) :
    l.contains x = false ↔ x ∉ l := by
  rw [← Bool.not_eq_true, contains_iff_mem_str]

theorem string_append_left_cancel (s a b : String) (h : s ++ a = s ++ b) : a = b := by
  apply String.ext
  have hd : s.data ++ a.data = s.data ++ b.data := String.ext_iff.mp h
  exact List.append_cancel_left hd

/-! ### Queue and sequential worker (claim C1) -/

/-- C1: in every reachable worker state, the broadcasts already emitted,
the at-most-one active job, and the still-queued jobs, in that order,
are exactly the enqueued turns in arrival order (so broadcasts are a
prefix of the arrival order, i.e. strict FIFO), and at most one job
pipeline is active at any time; the lock is exactly the activity flag,
because `processQueue` returns immediately when `isProcessing` is true
and only re-invokes itself after the current job finishes. -/
theorem processQueue_fifo_exclusive (s : QState) (h : QReachable s) :
    s.broadcasts ++ s.active ++ s.chatQueue = s.arrived ∧
    s.active.length ≤ 1 ∧
    (s.isProcessing = false → s.active = []) := by
  induction h with
  | init => simp [QInit]
  | step s s' _ hstep ih =>
    obtain ⟨horder, hlen, hidle⟩ := ih
    cases hstep with
    | enqueue t =>
      refine ⟨?_, hlen, hidle⟩
      simp only [← horder, List.append_assoc]
    | start t q hproc hq =>
      have hact : s.active = [] := hidle hproc
      refine ⟨?_, by simp [hact], by intro hco; cases hco⟩
      simp only [← horder, hq, hact, List.append_assoc, List.nil_append,
        List.singleton_append]
    | finish t a hsa =>
      have ha : a = [] := by
        have := hlen
        rw [hsa] at this
        simp at this
        simp [this]
      subst ha
      refine ⟨?_, by simp, fun _ => rfl⟩
      simp only [← horder, hsa, List.append_assoc, List.nil_append,
        List.singleton_append]

/-- Witness for C1 at a concrete reachable state. -/
theorem processQueue_fifo_exclusive_witness :
    QReachable qDemo ∧
    qDemo.broadcasts ++ qDemo.active ++ qDemo.chatQueue = qDemo.arrived ∧
    qDemo.active.length ≤ 1 := by
  have h : QReachable qDemo :=
    QReachable.step _ _ QReachable.init
      (QStep.enqueue QInit { username := "u", message := "hi" })
  exact ⟨h, (processQueue_fifo_exclusive _ h).1, (processQueue_fifo_exclusive _ h).2.1⟩

/-! ### History window (claim C4) -/

theorem pushHistory_length_le (h : List ChatTurn) (t : ChatTurn)
    (hle : h.length ≤ 100) : (pushHistory h t).length ≤ 100 := by
  unfold pushHistory
  split
  · rw [List.length_tail]
    simp only [List.length_append, List.length_cons, List.length_nil]
    omega
  · next hnot =>
    omega

theorem foldl_pushHistory_length (ts : List ChatTurn) :
    ∀ h : List ChatTurn, h.length ≤ 100 → (ts.foldl pushHistory h).length ≤ 100 := by
  induction ts with
  | nil => intro h hle; simpa using hle
  | cons t ts ih =>
    intro h hle
    exact ih (pushHistory h t) (pushHistory_length_le h t hle)

theorem foldl_pushHistory_id (ts : List ChatTurn) (hle : ts.length ≤ 100) :
    ts.foldl pushHistory [] = ts := by
  induction ts using List.reverseRecOn with
  | nil => rfl
  | append_singleton l a ih =>
    rw [List.foldl_append]
    have hl : l.length ≤ 100 := by
      simp only [List.length_append, List.length_cons, List.length_nil] at hle
      omega
    rw [ih hl]
    simp only [List.foldl_cons, List.foldl_nil]
    unfold pushHistory
    rw [if_neg]
    simp only [List.length_append, List.length_cons, List.length_nil] at hle ⊢
    omega

theorem foldl_pushHistory_drop (ts : List ChatTurn) (hge : 100 ≤ ts.length) :
    ts.foldl pushHistory [] = ts.drop (ts.length - 100) := by
  induction ts using List.reverseRecOn with
  | nil => simp at hge
  | append_singleton l a ih =>
    rw [List.foldl_append]
    simp only [List.foldl_cons, List.foldl_nil]
    by_cases hcase : 100 ≤ l.length
    · rw [ih hcase]
      have hlendrop : (l.drop (l.length - 100)).length = 100 := by
        rw [List.length_drop]; omega
      have hne : l.drop (l.length - 100) ≠ [] := by
        intro hcontra
        rw [hcontra] at hlendrop
        simp at hlendrop
      unfold pushHistory
      rw [if_pos (by simp [hlendrop])]
      obtain ⟨b, L, hbl⟩ := List.exists_cons_of_ne_nil hne
      rw [hbl]
      have htail : ((b :: L) ++ [a]).tail = L ++ [a] := rfl
      rw [htail]
      have hL : L = l.drop (l.length - 100 + 1) := by
        rw [← List.tail_drop l (l.length - 100), hbl, List.tail_cons]
      rw [hL]
      have harith : (l ++ [a]).length - 100 = l.length - 100 + 1 := by
        simp only [List.length_append, List.length_cons, List.length_nil]
        omega
      rw [harith]
      rw [List.drop_append_of_le_length (by omega)]
    · have hl99 : l.length = 99 := by
        simp only [List.length_append, List.length_cons, List.length_nil] at hge
        omega
      rw [foldl_pushHistory_id l (by omega)]
      unfold pushHistory
      rw [if_neg (by simp [hl99])]
      have hz : (l ++ [a]).length - 100 = 0 := by simp [hl99]
      rw [hz, List.drop_zero]

/-- C4: starting from any window within the capacity bound, the history
window never exceeds 100 entries after any sequence of appends, and
appending `ts` (length at least 100) to an empty window leaves exactly
the last 100 entries of `ts` in arrival order — in particular, pushing
N+5 turns keeps exactly the last N=100, the oldest 5 evicted. -/
theorem chatHistory_window (h ts : List ChatTurn) (hle : h.length ≤ 100) :
    (ts.foldl pushHistory h).length ≤ 100 ∧
    (100 ≤ ts.length → ts.foldl pushHistory [] = ts.drop (ts.length - 100)) :=
  ⟨foldl_pushHistory_length ts h hle, fun hge => foldl_pushHistory_drop ts hge⟩

/-- Witness for C4: pushing 105 distinct turns leaves exactly the last
100, and the bound holds. -/
theorem chatHistory_window_witness :
    ([] : List ChatTurn).length ≤ 100 ∧
    100 ≤ ((List.range 105).map fun i => ChatTurn.mk "u" (String.mk [Char.ofNat (65 + i)])).length ∧
    (((List.range 105).map fun i =>
        ChatTurn.mk "u" (String.mk [Char.ofNat (65 + i)])).foldl pushHistory []).length ≤ 100 ∧
    ((List.range 105).map fun i =>
        ChatTurn.mk "u" (String.mk [Char.ofNat (65 + i)])).foldl pushHistory [] =
      ((List.range 105).map fun i => ChatTurn.mk "u" (String.mk [Char.ofNat (65 + i)])).drop
        (((List.range 105).map fun i => ChatTurn.mk "u" (String.mk [Char.ofNat (65 + i)])).length - 100) := by
  refine ⟨by decide, by decide, ?_, ?_⟩
  · exact (chatHistory_window [] _ (by decide)).1
  · exact (chatHistory_window [] _ (by decide)).2 (by decide)

/-! ### Dedup/filter gate helpers -/

theorem gateAccepts_cons_seen (seen : List String) (u m : String) :
    gateAccepts seen u m = (!(seen.contains (u ++ m)) && gateAccepts [] u m) := by
  unfold gateAccepts
  have h : ([] : List String).contains (u ++ m) = false := rfl
  rw [h, Bool.not_false, Bool.true_and]
  simp [Bool.and_assoc]

theorem gateAccepts_false_of_mem (seen : List String) (u m : String)
    (hmem : (u ++ m) ∈ seen) : gateAccepts seen u m = false := by
  have hc : seen.contains (u ++ m) = true := (contains_iff_mem_str _ _).mpr hmem
  rw [gateAccepts_cons_seen, hc]
  rfl

theorem gateAccepts_nil_of (seen : List String) (u m : String)
    (hacc : gateAccepts seen u m = true) : gateAccepts [] u m = true := by
  rw [gateAccepts_cons_seen] at hacc
  exact (Bool.and_eq_true_iff.mp hacc).2

theorem gateAccepts_of_nil (seen : List String) (u m : String)
    (hnomem : (u ++ m) ∉ seen) (hacc : gateAccepts [] u m = true) :
    gateAccepts seen u m = true := by
  have hc : seen.contains (u ++ m) = false := (contains_false_iff_not_mem_str _ _).mpr hnomem
  rw [gateAccepts_cons_seen, hc, hacc]
  rfl

theorem gateAccepts_not_mem (seen : List String) (u m : String)
    (hacc : gateAccepts seen u m = true) : (u ++ m) ∉ seen := by
  rw [gateAccepts_cons_seen] at hacc
  have := (Bool.and_eq_true_iff.mp hacc).1
  intro hmem
  rw [(contains_iff_mem_str _ _).mpr hmem] at this
  cases this

theorem seenAdd_of_not_mem (seen : List String) (x : String) (hx : x ∉ seen) :
    seenAdd seen x =
      if 1000 < seen.length + 1 then (seen ++ [x]).tail else seen ++ [x] := by
  unfold seenAdd
  have hc : seen.contains x = false := (contains_false_iff_not_mem_str _ _).mpr hx
  rw [hc]
  simp

theorem seenAdd_small (seen : List String) (x : String) (hx : x ∉ seen)
    (hlen : seen.length < 1000) : seenAdd seen x = seen ++ [x] := by
  rw [seenAdd_of_not_mem seen x hx, if_neg (by omega)]

theorem seenAdd_mem_self (seen : List String) (x : String) (hlen : seen.length ≤ 1000) :
    x ∈ seenAdd seen x := by
  unfold seenAdd
  cases hc : seen.contains x with
  | true =>
    have hx : x ∈ seen := (contains_iff_mem_str _ _).mp hc
    simp only [hc, if_true]
    rw [if_neg (by omega)]
    exact hx
  | false =>
    simp only [hc, Bool.false_eq_true, if_false]
    by_cases h1000 : 1000 < seen.length + 1
    · rw [if_pos (by simpa using h1000)]
      have hne : seen ≠ [] := by
        intro hcontra
        rw [hcontra] at h1000
        simp at h1000
      obtain ⟨b, L, hbl⟩ := List.exists_cons_of_ne_nil hne
      subst hbl
      simp
    · rw [if_neg (by simpa using h1000)]
      simp

/-- The gate tested by `processChat` is applied to the cleaned fields,
and acceptance updates the dedup set via `seenAdd` regardless of whether
a forwarder URL is found afterwards. -/
theorem processChat_seen_of_accepted (u m : String) (hist : List ChatTurn)
    (seen : List String) (fs : List Forwarder) (ai : AiOutcome)
    (tts : String → Option String)
    (hacc : gateAccepts seen (clean u) (clean m) = true) :
    (processChat u m hist seen fs ai tts).seen = seenAdd seen (clean u ++ clean m) := by
  unfold processChat
  simp only [hacc, if_true]
  cases hsel : getSelectedForwarderUrl fs <;> simp

theorem processChat_suppressed_eq (u m : String) (hist : List ChatTurn)
    (seen : List String) (fs : List Forwarder) (ai : AiOutcome)
    (tts : String → Option String)
    (hrej : gateAccepts seen (clean u) (clean m) = false) :
    processChat u m hist seen fs ai tts =
      { broadcast := some (nullBroadcast (clean u) (clean m)),
        seen := seen, forwarders := fs } := by
  unfold processChat nullBroadcast
  simp [hrej]

/-! ### Claim C6: length bounds of the filter -/

/-- C6: a message whose normalized length is below 2 or above 200 is
suppressed by the gate, and any normalized length within `[2, 200]`
passes the length check of the filter. -/
theorem gate_length_bounds (seen : List String) (cu m : String) :
    (((clean m).length < 2 ∨ 200 < (clean m).length) →
        gateAccepts seen cu (clean m) = false) ∧
    (2 ≤ (clean m).length → (clean m).length ≤ 200 → lengthCheck (clean m) = true) := by
  constructor
  · intro hlen
    unfold gateAccepts lengthCheck
    rcases hlen with h | h
    · have hd : decide (2 ≤ (clean m).length) = false := by simp; omega
      simp [hd]
    · have hd : decide ((clean m).length ≤ 200) = false := by simp; omega
      simp [hd]
  · intro h1 h2
    unfold lengthCheck
    simp [h1, h2]

/-- Witness for C6: the one-character message "a" is suppressed, the
two-character message "hi" passes the length check. -/
theorem gate_length_bounds_witness :
    gateAccepts [] (clean "u") (clean "a") = false ∧
    lengthCheck (clean "hi") = true :=
  ⟨(gate_length_bounds [] (clean "u") "a").1 (Or.inl (by decide)),
   (gate_length_bounds [] (clean "u") "hi").2 (by decide) (by decide)⟩

/-! ### Claim C2: suppressed messages and the broadcast -/

/-- C2 counterexample: the one-character message "a" is suppressed by
the gate, yet `processChat` still sends a payload to the connected
viewer clients (the `wss.clients.forEach` broadcast sits outside the
filter's `if` block), so a suppressed turn does not produce
"no broadcast at all". -/
theorem suppressed_message_still_broadcast_cex :
    gateAccepts [] (clean "u") (clean "a") = false ∧
    (processChat "u" "a" [] [] [] AiOutcome.networkError demoTts).broadcast ≠ none := by
  refine ⟨by decide, by decide⟩

/-- C2 amended: a suppressed `(username, message)` pair never reaches
the AI call — the dedup set and the forwarder registry are left
untouched — but a broadcast is still sent to every connected viewer,
carrying the normalized username and message with `message`, `audio`
and `emotion` all null. -/
theorem suppressed_no_ai_but_broadcast (u m : String) (hist : List ChatTurn)
    (seen : List String) (fs : List Forwarder) (ai : AiOutcome)
    (tts : String → Option String)
    (hrej : gateAccepts seen (clean u) (clean m) = false) :
    processChat u m hist seen fs ai tts =
      { broadcast := some (nullBroadcast (clean u) (clean m)),
        seen := seen, forwarders := fs } :=
  processChat_suppressed_eq u m hist seen fs ai tts hrej

/-- Witness for the amended C2 at the suppressed message "a". -/
theorem suppressed_no_ai_but_broadcast_witness :
    gateAccepts [] (clean "u") (clean "a") = false ∧
    processChat "u" "a" [] [] [] AiOutcome.networkError demoTts =
      { broadcast := some (nullBroadcast (clean "u") (clean "a")),
        seen := [], forwarders := [] } :=
  ⟨by decide,
   suppressed_no_ai_but_broadcast "u" "a" [] [] [] AiOutcome.networkError demoTts (by decide)⟩

/-! ### Claim C9: gate position relative to the history append -/

/-- C9 counterexample: the message "scam alert" is suppressed by the
gate, yet the `newMessage` handler appends it to the history window
(and enqueues it) — the gate runs later, inside the worker, so the
window is not restricted to gate-accepted turns. -/
theorem suppressed_message_appended_to_history_cex :
    gateAccepts [] (clean "u") (clean "scam alert") = false ∧
    (handleNewMessage { chatHistory := [], chatQueue := [] } "u" "scam alert" "w").chatHistory =
      [{ username := "u", message := "scam alert" }] ∧
    (handleNewMessage { chatHistory := [], chatQueue := [] } "u" "scam alert" "w").chatQueue =
      [{ username := "u", message := "scam alert" }] := by
  refine ⟨by decide, by decide, by decide⟩

/-- C9 amended: the `newMessage` handler appends every well-formed
inbound event to the history window and the job queue at ingestion
time, before the dedup/filter gate ever runs (the gate executes later,
inside the worker's `processChat`); in particular a turn the gate
suppresses is still appended, so the window and the AI context snapshot
may contain suppressed turns. -/
theorem history_append_before_gate (st : IngestState) (u m ua : String)
    (seen : List String)
    (h1 : ¬u = "") (h2 : ¬m = "") (h3 : ¬ua = "")
    (hsupp : gateAccepts seen (clean (finalName u ua)) (clean m) = false) :
    (handleNewMessage st u m ua).chatHistory =
      pushHistory st.chatHistory { username := finalName u ua, message := m } ∧
    (handleNewMessage st u m ua).chatQueue =
      st.chatQueue ++ [{ username := finalName u ua, message := m }] := by
  unfold handleNewMessage
  rw [if_neg (by simp [h1, h2, h3])]
  exact ⟨rfl, rfl⟩

/-- Witness for the amended C9: a suppressed spam message is appended. -/
theorem history_append_before_gate_witness :
    ¬("u" : String) = "" ∧ ¬("scam alert" : String) = "" ∧ ¬("w" : String) = "" ∧
    gateAccepts [] (clean (finalName "u" "w")) (clean "scam alert") = false ∧
    (handleNewMessage { chatHistory := [], chatQueue := [] } "u" "scam alert" "w").chatHistory =
      pushHistory [] { username := finalName "u" "w", message := "scam alert" } ∧
    (handleNewMessage { chatHistory := [], chatQueue := [] } "u" "scam alert" "w").chatQueue =
      [] ++ [{ username := finalName "u" "w", message := "scam alert" }] := by
  refine ⟨by decide, by decide, by decide, by decide, ?_⟩
  exact history_append_before_gate { chatHistory := [], chatQueue := [] } "u" "scam alert" "w"
    [] (by decide) (by decide) (by decide) (by decide)

/-! ### Claim C10: username truncation for address-named users -/

/-- C10: when the inbound event's `username` equals its `userAddress`,
the turn appended to history and enqueued carries only the first 6
characters of the username; when the two differ, the username is used
unchanged. -/
theorem username_truncated_when_address (st : IngestState) (u m ua : String)
    (h1 : ¬u = "") (h2 : ¬m = "") (h3 : ¬ua = "") :
    (u = ua →
      (handleNewMessage st u m ua).chatQueue =
        st.chatQueue ++ [{ username := String.mk (u.data.take 6), message := m }] ∧
      (handleNewMessage st u m ua).chatHistory =
        pushHistory st.chatHistory { username := String.mk (u.data.take 6), message := m }) ∧
    (¬u = ua →
      (handleNewMessage st u m ua).chatQueue =
        st.chatQueue ++ [{ username := u, message := m }] ∧
      (handleNewMessage st u m ua).chatHistory =
        pushHistory st.chatHistory { username := u, message := m }) := by
  unfold handleNewMessage finalName
  rw [if_neg (by simp [h1, h2, h3])]
  constructor
  · intro he
    rw [if_pos (by simp [he])]
    exact ⟨rfl, rfl⟩
  · intro hne
    rw [if_neg (by simp [hne])]
    exact ⟨rfl, rfl⟩

/-- Witness for C10 in both directions: an 8-character address-named
user is truncated to 6 characters; a normally-named user is not. -/
theorem username_truncated_when_address_witness :
    ((handleNewMessage { chatHistory := [], chatQueue := [] } "abcdefgh" "hi" "abcdefgh").chatQueue =
      [] ++ [{ username := String.mk ("abcdefgh".data.take 6), message := "hi" }]) ∧
    ((handleNewMessage { chatHistory := [], chatQueue := [] } "alice" "hi" "0xdead").chatQueue =
      [] ++ [{ username := "alice", message := "hi" }]) := by
  constructor
  · exact ((username_truncated_when_address { chatHistory := [], chatQueue := [] }
      "abcdefgh" "hi" "abcdefgh" (by decide) (by decide) (by decide)).1 rfl).1
  · exact ((username_truncated_when_address { chatHistory := [], chatQueue := [] }
      "alice" "hi" "0xdead" (by decide) (by decide) (by decide)).2 (by decide)).1

/-! ### Normalization lemmas (claim C8) -/

theorem head?_dropWhile_not (p : Char → Bool) (l : List Char) (c : Char)
    (h : (l.dropWhile p).head? = some c) : p c = false := by
  induction l with
  | nil => cases h
  | cons a l ih =>
    rw [List.dropWhile_cons] at h
    by_cases hp : p a = true
    · rw [if_pos hp] at h
      exact ih h
    · rw [if_neg hp] at h
      have hca : c = a := by
        have := h
        simp at this
        exact this.symm
      subst hca
      simpa using hp

theorem getLast?_suffix_eq (l1 l2 : List Char) (h : l1 <:+ l2) (hne : l1 ≠ []) :
    l1.getLast? = l2.getLast? := by
  obtain ⟨t, rfl⟩ := h
  exact (List.getLast?_append_of_ne_nil t hne).symm

theorem trimChars_noEdgeWs (cs : List Char) : noEdgeWs (trimChars cs) = true := by
  have hhead : ∀ c, (trimChars cs).head? = some c → isWsChar c = false := by
    intro c hc
    unfold trimChars at hc
    rw [List.head?_reverse] at hc
    have hXne : (cs.dropWhile isWsChar).reverse.dropWhile isWsChar ≠ [] := by
      intro hcontra
      rw [hcontra] at hc
      cases hc
    have hsfx := List.dropWhile_suffix (l := (cs.dropWhile isWsChar).reverse) isWsChar
    rw [getLast?_suffix_eq _ _ hsfx hXne, List.getLast?_reverse] at hc
    exact head?_dropWhile_not isWsChar cs c hc
  have hlast : ∀ c, (trimChars cs).getLast? = some c → isWsChar c = false := by
    intro c hc
    unfold trimChars at hc
    rw [List.getLast?_reverse] at hc
    exact head?_dropWhile_not isWsChar _ c hc
  unfold noEdgeWs
  have h1 : (match (trimChars cs).head? with
      | some c => !isWsChar c
      | none => true) = true := by
    cases hh : (trimChars cs).head? with
    | none => rfl
    | some c => simp [hhead c hh]
  have h2 : (match (trimChars cs).getLast? with
      | some c => !isWsChar c
      | none => true) = true := by
    cases hh : (trimChars cs).getLast? with
    | none => rfl
    | some c => simp [hlast c hh]
  rw [h1, h2]
  rfl

theorem escapeLtGt_no_angle (cs : List Char) :
    ∀ c ∈ escapeLtGt cs, ¬c = '<' ∧ ¬c = '>' := by
  induction cs with
  | nil => intro c hc; cases hc
  | cons a l ih =>
    intro c hc
    unfold escapeLtGt at hc
    rw [List.mem_append] at hc
    rcases hc with hc | hc
    · by_cases h1 : a = '<'
      · rw [if_pos h1] at hc
        fin_cases hc <;> exact ⟨by decide, by decide⟩
      · rw [if_neg h1] at hc
        by_cases h2 : a = '>'
        · rw [if_pos h2] at hc
          fin_cases hc <;> exact ⟨by decide, by decide⟩
        · rw [if_neg h2, List.mem_singleton] at hc
          subst hc
          exact ⟨h1, h2⟩
    · exact ih c hc

theorem mem_escapeLtGt_of (cs : List Char) (c : Char)
    (h1 : ¬c = '<') (h2 : ¬c = '>') (hmem : c ∈ cs) : c ∈ escapeLtGt cs := by
  induction cs with
  | nil => cases hmem
  | cons a l ih =>
    unfold escapeLtGt
    rw [List.mem_append]
    rcases List.mem_cons.mp hmem with hca | hcl
    · subst hca
      left
      rw [if_neg h1, if_neg h2, List.mem_singleton]
    · right
      exact ih hcl

theorem mem_dropWhile_of (p : Char → Bool) (c : Char) (hc : p c = false) :
    ∀ l : List Char, c ∈ l → c ∈ l.dropWhile p := by
  intro l
  induction l with
  | nil => intro h; cases h
  | cons a l ih =>
    intro hmem
    rw [List.dropWhile_cons]
    by_cases hp : p a = true
    · rw [if_pos hp]
      rcases List.mem_cons.mp hmem with hca | hcl
      · subst hca
        rw [hc] at hp
        cases hp
      · exact ih hcl
    · rw [if_neg hp]
      exact hmem

theorem mem_trimChars_of (cs : List Char) (c : Char)
    (hws : isWsChar c = false) (hmem : c ∈ cs) : c ∈ trimChars cs := by
  unfold trimChars
  rw [List.mem_reverse]
  apply mem_dropWhile_of isWsChar c hws
  rw [List.mem_reverse]
  exact mem_dropWhile_of isWsChar c hws cs hmem

theorem mem_of_mem_trimChars (cs : List Char) (c : Char)
    (hmem : c ∈ trimChars cs) : c ∈ cs := by
  unfold trimChars at hmem
  rw [List.mem_reverse] at hmem
  have h1 := (List.dropWhile_suffix isWsChar).sublist.mem hmem
  rw [List.mem_reverse] at h1
  exact (List.dropWhile_suffix isWsChar).sublist.mem h1

theorem processChat_broadcast_fields (u m : String) (hist : List ChatTurn)
    (seen : List String) (fs : List Forwarder) (ai : AiOutcome)
    (tts : String → Option String) :
    (processChat u m hist seen fs ai tts).broadcast.all
      (fun b => b.username == clean u && b.userMessage == clean m) = true := by
  by_cases hacc : gateAccepts seen (clean u) (clean m) = true
  · cases hsel : getSelectedForwarderUrl fs with
    | none => simp [processChat, hacc, hsel, Option.all]
    | some url => simp [processChat, hacc, hsel, Option.all]
  · have hrej : gateAccepts seen (clean u) (clean m) = false := by
      simpa using hacc
    simp [processChat, hrej, Option.all, nullBroadcast]

/-! ### Claim C8: what normalization actually does -/

/-- C8 counterexample: the bracketed stage direction `[wave]` is not
stripped by normalization — the cleaned message still contains it, and
it flows through the filter and into the broadcast payload verbatim. -/
theorem normalization_keeps_brackets_cex :
    clean "ab [wave] cd" = "ab [wave] cd" ∧
    '[' ∈ (clean "ab [wave] cd").data ∧
    (processChat "u" "ab [wave] cd" [] [] demoForwarders demoAi demoTts).broadcast =
      some { username := "u", userMessage := "ab [wave] cd", message := some "ok",
             audio := none, emotion := some "happy" } := by
  refine ⟨by decide, by decide, by decide⟩

/-- C8 amended: normalization HTML-escapes `<` and `>` in both fields
and trims whitespace — the cleaned message contains no raw angle
bracket and no leading or trailing whitespace, and it is what the
filter rules and the broadcast payload use — but bracketed
stage-direction tokens are NOT stripped: a `[` present in the raw
message survives into the cleaned message. -/
theorem normalization_escape_trim_only (u m : String) (hist : List ChatTurn)
    (seen : List String) (fs : List Forwarder) (ai : AiOutcome)
    (tts : String → Option String) (hlb : '[' ∈ m.data) :
    ((clean m).data.all (fun c => !(c == '<') && !(c == '>')) = true) ∧
    noEdgeWs (clean m).data = true ∧
    '[' ∈ (clean m).data ∧
    ((processChat u m hist seen fs ai tts).broadcast.all
      (fun b => b.username == clean u && b.userMessage == clean m) = true) := by
  refine ⟨?_, ?_, ?_, processChat_broadcast_fields u m hist seen fs ai tts⟩
  · rw [List.all_eq_true]
    intro c hc
    have hmem : c ∈ trimChars (escapeLtGt m.data) := hc
    have hesc : c ∈ escapeLtGt m.data := mem_of_mem_trimChars _ c hmem
    obtain ⟨h1, h2⟩ := escapeLtGt_no_angle m.data c hesc
    simp [h1, h2]
  · exact trimChars_noEdgeWs (escapeLtGt m.data)
  · show '[' ∈ trimChars (escapeLtGt m.data)
    exact mem_trimChars_of _ _ (by decide)
      (mem_escapeLtGt_of m.data '[' (by decide) (by decide) hlb)

/-- Witness for the amended C8 at a raw message with brackets, angle
brackets and edge whitespace. -/
theorem normalization_escape_trim_only_witness :
    '[' ∈ (" a[b]<c> " : String).data ∧
    ((clean " a[b]<c> ").data.all (fun c => !(c == '<') && !(c == '>')) = true) ∧
    noEdgeWs (clean " a[b]<c> ").data = true ∧
    '[' ∈ (clean " a[b]<c> ").data ∧
    ((processChat "u" " a[b]<c> " [] [] demoForwarders demoAi demoTts).broadcast.all
      (fun b => b.username == clean "u" && b.userMessage == clean " a[b]<c> ") = true) :=
  ⟨by decide,
   normalization_escape_trim_only "u" " a[b]<c> " [] [] demoForwarders demoAi demoTts (by decide)⟩

/-! ### Forwarder registry lemmas -/

theorem deactivateSelected_length (fs : List Forwarder) :
    (deactivateSelected fs).length = fs.length := by
  induction fs with
  | nil => rfl
  | cons f l ih =>
    unfold deactivateSelected
    by_cases hf : f.selected = true
    · rw [if_pos hf]
      simp
    · rw [if_neg hf]
      simp [ih]

theorem activateFirstFree_length (fs : List Forwarder) :
    ((activateFirstFree fs).1).length = fs.length := by
  induction fs with
  | nil => rfl
  | cons f l ih =>
    unfold activateFirstFree
    by_cases hf : f.isUsageLimited = true
    · rw [if_pos hf]
      simp [ih]
    · rw [if_neg hf]
      simp

theorem deactivateSelected_getElem_limited (fs : List Forwarder) :
    ∀ (i : Nat) (f g : Forwarder),
      fs.countP (fun x => x.selected) ≤ 1 →
      fs[i]? = some f → f.selected = true →
      (deactivateSelected fs)[i]? = some g → g.isUsageLimited = true := by
  induction fs with
  | nil => intro i f g _ hf; cases hf
  | cons a l ih =>
    intro i f g hone hf hsel hg
    by_cases ha : a.selected = true
    · cases i with
      | zero =>
        unfold deactivateSelected at hg
        rw [if_pos ha] at hg
        simp at hg
        rw [← hg]
      | succ j =>
        exfalso
        simp only [List.getElem?_cons_succ] at hf
        have hmem : f ∈ l := List.getElem?_mem hf
        have hcnt : 1 ≤ l.countP (fun x => x.selected) := by
          rw [List.one_le_countP_iff]
          exact ⟨f, hmem, hsel⟩
        rw [List.countP_cons, if_pos ha] at hone
        omega
    · cases i with
      | zero =>
        simp only [List.getElem?_cons_zero] at hf
        have : f = a := by
          cases hf
          rfl
        subst this
        exact absurd hsel ha
      | succ j =>
        unfold deactivateSelected at hg
        rw [if_neg ha] at hg
        simp only [List.getElem?_cons_succ] at hf hg
        have hone2 : l.countP (fun x => x.selected) ≤ 1 := by
          rw [List.countP_cons] at hone
          omega
        exact ih j f g hone2 hf hsel hg

theorem activateFirstFree_getElem_limited (fs : List Forwarder) :
    ∀ (i : Nat) (f g : Forwarder),
      fs[i]? = some f → ((activateFirstFree fs).1)[i]? = some g →
      g.isUsageLimited = f.isUsageLimited := by
  induction fs with
  | nil => intro i f g hf; cases hf
  | cons a l ih =>
    intro i f g hf hg
    by_cases ha : a.isUsageLimited = true
    · unfold activateFirstFree at hg
      rw [if_pos ha] at hg
      cases i with
      | zero =>
        simp at hf hg
        rw [← hf, ← hg]
      | succ j =>
        simp only [List.getElem?_cons_succ] at hf hg
        exact ih j f g hf hg
    · unfold activateFirstFree at hg
      rw [if_neg ha] at hg
      cases i with
      | zero =>
        simp at hf hg
        rw [← hf, ← hg]
      | succ j =>
        simp only [List.getElem?_cons_succ] at hf hg
        rw [hf] at hg
        cases hg
        rfl

/-! ### Claim C3: AI network error handling -/

/-- The broadcast payload produced after the outer `catch` of the AI
call fires: the fixed fallback text, null emotion, and whatever the TTS
call returns for the fallback text. -/
def fallbackBroadcast (cu cm : String) (tts : String → Option String) : Broadcast :=
  { username := cu, userMessage := cm, message := some fallbackErrorText,
    audio := tts fallbackErrorText, emotion := none }

theorem processChat_network_error_eq (u m : String) (hist : List ChatTurn)
    (seen : List String) (fs : List Forwarder) (tts : String → Option String)
    (url : String)
    (hacc : gateAccepts seen (clean u) (clean m) = true)
    (hurl : getSelectedForwarderUrl fs = some url) :
    processChat u m hist seen fs AiOutcome.networkError tts =
      { broadcast := some (fallbackBroadcast (clean u) (clean m) tts),
        seen := seenAdd seen (clean u ++ clean m),
        forwarders := (rotateToNextForwarder fs).1 } := by
  unfold processChat fallbackBroadcast
  simp [hacc, hurl, textWithEmotion, emotionTag]

/-- C3 counterexample: for an accepted turn whose AI call throws a
network error, the TTS call still runs on the fallback text, so when
synthesis succeeds the broadcast's `audio` is NOT null (here it is the
synthesized base64 "QUJD"), contradicting the claimed `audio: null`. -/
theorem ai_error_audio_not_null_cex :
    gateAccepts [] (clean "u") (clean "hello") = true ∧
    (processChat "u" "hello" [] [] demoForwarders AiOutcome.networkError
        (fun _ => some "QUJD")).broadcast =
      some { username := "u", userMessage := "hello", message := some fallbackErrorText,
             audio := some "QUJD", emotion := none } := by
  refine ⟨by decide, by decide⟩

/-- C3 amended: for every accepted turn whose AI call throws a network
error, the broadcast carries the fixed fallback reply text and a null
emotion, the audio is exactly the TTS result for the fallback text
(null only when synthesis fails), the registry persisted afterwards is
`rotateToNextForwarder` of the old one, and in it the previously
selected entry is marked `isUsageLimited = true`. -/
theorem ai_network_error_fallback (u m : String) (hist : List ChatTurn)
    (seen : List String) (fs : List Forwarder) (tts : String → Option String)
    (url : String) (i : Nat) (f : Forwarder)
    (hacc : gateAccepts seen (clean u) (clean m) = true)
    (hurl : getSelectedForwarderUrl fs = some url)
    (hone : fs.countP (fun x => x.selected) ≤ 1)
    (hf : fs[i]? = some f) (hsel : f.selected = true) :
    processChat u m hist seen fs AiOutcome.networkError tts =
      { broadcast := some (fallbackBroadcast (clean u) (clean m) tts),
        seen := seenAdd seen (clean u ++ clean m),
        forwarders := (rotateToNextForwarder fs).1 } ∧
    (∀ g, ((rotateToNextForwarder fs).1)[i]? = some g → g.isUsageLimited = true) := by
  refine ⟨processChat_network_error_eq u m hist seen fs tts url hacc hurl, ?_⟩
  intro g hg
  have hi : i < fs.length := by
    have := List.getElem?_eq_some.mp hf
    exact this.1
  have hid : i < (deactivateSelected fs).length := by
    rw [deactivateSelected_length]; exact hi
  have hd : (deactivateSelected fs)[i]? = some ((deactivateSelected fs)[i]) :=
    List.getElem?_eq_getElem hid
  have hdl : ((deactivateSelected fs)[i]).isUsageLimited = true :=
    deactivateSelected_getElem_limited fs i f _ hone hf hsel hd
  have hrg : g.isUsageLimited = ((deactivateSelected fs)[i]).isUsageLimited := by
    unfold rotateToNextForwarder at hg
    exact activateFirstFree_getElem_limited (deactivateSelected fs) i _ g hd hg
  rw [hrg, hdl]

/-- Witness for the amended C3: user "alice", message "hello there", a
failing TTS call, and a one-entry registry whose selected forwarder is
deactivated by the failover. -/
theorem ai_network_error_fallback_witness :
    gateAccepts [] (clean "alice") (clean "hello there") = true ∧
    getSelectedForwarderUrl demoForwarders = some "x" ∧
    demoForwarders.countP (fun x => x.selected) ≤ 1 ∧
    demoForwarders[0]? = some { url := "x", isUsageLimited := false, selected := true } ∧
    processChat "alice" "hello there" [] [] demoForwarders AiOutcome.networkError demoTts =
      { broadcast := some (fallbackBroadcast (clean "alice") (clean "hello there") demoTts),
        seen := seenAdd [] (clean "alice" ++ clean "hello there"),
        forwarders := (rotateToNextForwarder demoForwarders).1 } ∧
    (∀ g, ((rotateToNextForwarder demoForwarders).1)[0]? = some g →
        g.isUsageLimited = true) := by
  refine ⟨by decide, by decide, by decide, by decide, ?_, ?_⟩
  · exact (ai_network_error_fallback "alice" "hello there" [] [] demoForwarders demoTts
      "x" 0 { url := "x", isUsageLimited := false, selected := true }
      (by decide) (by decide) (by decide) (by decide) (by decide)).1
  · exact (ai_network_error_fallback "alice" "hello there" [] [] demoForwarders demoTts
      "x" 0 { url := "x", isUsageLimited := false, selected := true }
      (by decide) (by decide) (by decide) (by decide) (by decide)).2

/-! ### Claim C7: failover behavior of the forwarder registry -/

theorem activateFirstFree_all_limited (l : List Forwarder)
    (hall : l.all (fun x => x.isUsageLimited) = true) :
    activateFirstFree l = (l, none) := by
  induction l with
  | nil => rfl
  | cons a l ih =>
    rw [List.all_cons] at hall
    obtain ⟨ha, hl⟩ := Bool.and_eq_true_iff.mp hall
    unfold activateFirstFree
    rw [if_pos ha, ih hl]

theorem activateFirstFree_split (pre post : List Forwarder) (g : Forwarder)
    (hpre : pre.all (fun x => x.isUsageLimited) = true)
    (hg : g.isUsageLimited = false) :
    activateFirstFree (pre ++ g :: post) =
      (pre ++ { g with selected := true } :: post, some g.url) := by
  induction pre with
  | nil =>
    simp only [List.nil_append]
    unfold activateFirstFree
    rw [if_neg (by rw [hg]; exact Bool.false_ne_true)]
  | cons a pre ih =>
    rw [List.all_cons] at hpre
    obtain ⟨ha, hp⟩ := Bool.and_eq_true_iff.mp hpre
    simp only [List.cons_append]
    unfold activateFirstFree
    rw [if_pos ha, ih hp]

theorem deactivateSelected_all_limited (fs : List Forwarder)
    (hone : fs.countP (fun x => x.selected) ≤ 1)
    (hall : fs.all (fun x => x.isUsageLimited) = true) :
    (deactivateSelected fs).all (fun x => x.isUsageLimited && !x.selected) = true := by
  induction fs with
  | nil => rfl
  | cons a l ih =>
    rw [List.all_cons] at hall
    obtain ⟨ha, hl⟩ := Bool.and_eq_true_iff.mp hall
    by_cases hsel : a.selected = true
    · unfold deactivateSelected
      rw [if_pos hsel, List.all_cons]
      have hcnt : l.countP (fun x => x.selected) = 0 := by
        rw [List.countP_cons, if_pos hsel] at hone
        omega
      have hnosel : ∀ x ∈ l, x.selected = false := by
        intro x hx
        have := (List.countP_eq_zero.mp hcnt) x hx
        simpa using this
      refine Bool.and_eq_true_iff.mpr ⟨rfl, ?_⟩
      rw [List.all_eq_true]
      intro x hx
      have hxl : x.isUsageLimited = true := by
        rw [List.all_eq_true] at hl
        exact hl x hx
      rw [hxl, hnosel x hx]
      rfl
    · unfold deactivateSelected
      rw [if_neg hsel, List.all_cons]
      have hone2 : l.countP (fun x => x.selected) ≤ 1 := by
        rw [List.countP_cons] at hone
        omega
      refine Bool.and_eq_true_iff.mpr ⟨?_, ih hone2 hl⟩
      rw [ha]
      have : a.selected = false := by simpa using hsel
      rw [this]
      rfl

/-- C7 counterexample.  First input: exactly one entry is usage-limited
and one is free, but the free one is the selected one — `failover`
deactivates it first, finds no free entry, and returns the not-found
signal instead of the free entry's URL.  Second input: every entry is
usage-limited and two are marked selected — after `failover` the second
entry still has `selected = true`, so not every entry ends up with
`selected = false`. -/
theorem failover_free_selected_cex :
    rotateToNextForwarder
        [{ url := "a", isUsageLimited := true, selected := false },
         { url := "b", isUsageLimited := false, selected := true }] =
      ([{ url := "a", isUsageLimited := true, selected := false },
        { url := "b", isUsageLimited := true, selected := false }], none) ∧
    rotateToNextForwarder
        [{ url := "a", isUsageLimited := true, selected := true },
         { url := "b", isUsageLimited := true, selected := true }] =
      ([{ url := "a", isUsageLimited := true, selected := false },
        { url := "b", isUsageLimited := true, selected := true }], none) := by
  refine ⟨by decide, by decide⟩

/-- C7 amended: `failover()` first marks the (first) selected entry
`isUsageLimited = true, selected = false`; then (a) if, after this
deactivation, a non-usage-limited entry remains, the first such entry
(in list order) becomes selected and its URL is returned; (b) if none
remains, the deactivated list itself is persisted together with a
not-found signal; and (c) when every entry of the input was already
usage-limited and at most one entry was selected, the persisted list
has every entry `isUsageLimited = true` and `selected = false`. -/
theorem rotateToNextForwarder_behavior (fs pre post : List Forwarder) (g : Forwarder)
    (hone : fs.countP (fun x => x.selected) ≤ 1) :
    (deactivateSelected fs = pre ++ g :: post →
      pre.all (fun x => x.isUsageLimited) = true →
      g.isUsageLimited = false →
      rotateToNextForwarder fs = (pre ++ { g with selected := true } :: post, some g.url)) ∧
    ((deactivateSelected fs).all (fun x => x.isUsageLimited) = true →
      rotateToNextForwarder fs = (deactivateSelected fs, none)) ∧
    (fs.all (fun x => x.isUsageLimited) = true →
      ((rotateToNextForwarder fs).1).all
        (fun x => x.isUsageLimited && !x.selected) = true) := by
  refine ⟨?_, ?_, ?_⟩
  · intro hsplit hpre hg
    unfold rotateToNextForwarder
    rw [hsplit]
    exact activateFirstFree_split pre post g hpre hg
  · intro hall
    unfold rotateToNextForwarder
    rw [activateFirstFree_all_limited _ hall]
  · intro hall
    have hd := deactivateSelected_all_limited fs hone hall
    have hdlim : (deactivateSelected fs).all (fun x => x.isUsageLimited) = true := by
      rw [List.all_eq_true] at hd ⊢
      intro x hx
      exact (Bool.and_eq_true_iff.mp (hd x hx)).1
    unfold rotateToNextForwarder
    rw [activateFirstFree_all_limited _ hdlim]
    exact hd

/-- Witness for the amended C7: a two-entry registry whose selected
entry is the first and whose free entry is the second; failover
deactivates the first and promotes the second. -/
theorem rotateToNextForwarder_behavior_witness :
    ([{ url := "a", isUsageLimited := true, selected := true },
      { url := "b", isUsageLimited := false, selected := false }] : List Forwarder).countP
        (fun x => x.selected) ≤ 1 ∧
    rotateToNextForwarder
        [{ url := "a", isUsageLimited := true, selected := true },
         { url := "b", isUsageLimited := false, selected := false }] =
      ([{ url := "a", isUsageLimited := true, selected := false },
        { url := "b", isUsageLimited := false, selected := true }], some "b") := by
  refine ⟨by decide, ?_⟩
  exact (rotateToNextForwarder_behavior
    [{ url := "a", isUsageLimited := true, selected := true },
     { url := "b", isUsageLimited := false, selected := false }]
    [{ url := "a", isUsageLimited := true, selected := false }] []
    { url := "b", isUsageLimited := false, selected := false }
    (by decide)).1 (by decide) (by decide) (by decide)

/-! ### Self-clean lemmas and substring bounds (claim C5) -/

theorem escapeLtGt_eq_self (cs : List Char) (h : ∀ c ∈ cs, ¬c = '<' ∧ ¬c = '>') :
    escapeLtGt cs = cs := by
  induction cs with
  | nil => rfl
  | cons a l ih =>
    obtain ⟨h1, h2⟩ := h a (List.mem_cons_self a l)
    unfold escapeLtGt
    rw [if_neg h1, if_neg h2, ih (fun c hc => h c (List.mem_cons_of_mem a hc))]
    rfl

theorem dropWhile_eq_self_of (p : Char → Bool) (cs : List Char)
    (h : ∀ c ∈ cs, p c = false) : cs.dropWhile p = cs := by
  cases cs with
  | nil => rfl
  | cons a l =>
    rw [List.dropWhile_cons, if_neg]
    rw [h a (List.mem_cons_self a l)]
    exact Bool.false_ne_true

theorem trimChars_eq_self (cs : List Char) (h : ∀ c ∈ cs, isWsChar c = false) :
    trimChars cs = cs := by
  unfold trimChars
  rw [dropWhile_eq_self_of _ _ h]
  rw [dropWhile_eq_self_of _ _ (fun c hc => h c (List.mem_reverse.mp hc))]
  exact List.reverse_reverse cs

theorem clean_eq_self (s : String)
    (h : ∀ c ∈ s.data, (¬c = '<' ∧ ¬c = '>') ∧ isWsChar c = false) : clean s = s := by
  apply String.ext
  show trimChars (escapeLtGt s.data) = s.data
  rw [escapeLtGt_eq_self _ (fun c hc => (h c hc).1)]
  exact trimChars_eq_self _ (fun c hc => (h c hc).2)

theorem filenameLike_dot_mem (cs : List Char) (h : filenameLike cs = true) : '.' ∈ cs := by
  unfold filenameLike at h
  cases hdw : cs.dropWhile isWordChar with
  | nil => rw [hdw] at h; cases h
  | cons c rest =>
    rw [hdw] at h
    have hc : c = '.' := by
      have h1 := Bool.and_eq_true_iff.mp h
      have h2 := Bool.and_eq_true_iff.mp h1.1
      have h3 := Bool.and_eq_true_iff.mp h2.1
      exact eq_of_beq h3.1
    subst hc
    have : '.' ∈ cs.dropWhile isWordChar := by
      rw [hdw]
      exact List.mem_cons_self _ _
    exact (List.dropWhile_sublist isWordChar).mem this

theorem leadsWith_length_le (n : List Char) :
    ∀ h : List Char, leadsWith n h = true → n.length ≤ h.length := by
  induction n with
  | nil => intro h _; simp
  | cons a as ih =>
    intro h hp
    cases h with
    | nil => cases hp
    | cons b bs =>
      unfold leadsWith at hp
      have h2 := (Bool.and_eq_true_iff.mp hp).2
      have := ih bs h2
      simp only [List.length_cons]
      omega

theorem hasSub_length_le (n : List Char) :
    ∀ h : List Char, hasSub n h = true → n.length ≤ h.length := by
  intro h
  induction h with
  | nil =>
    intro hp
    unfold hasSub at hp
    rw [List.isEmpty_iff] at hp
    simp [hp]
  | cons c rest ih =>
    intro hp
    unfold hasSub at hp
    rcases Bool.or_eq_true_iff.mp hp with hl | hs
    · exact leadsWith_length_le n (c :: rest) hl
    · have := ih hs
      simp only [List.length_cons]
      omega

theorem hasSub_singleton_mem (c : Char) :
    ∀ h : List Char, hasSub [c] h = true → c ∈ h := by
  intro h
  induction h with
  | nil => intro hp; cases hp
  | cons b bs ih =>
    intro hp
    unfold hasSub at hp
    rcases Bool.or_eq_true_iff.mp hp with hl | hs
    · unfold leadsWith at hl
      have := (Bool.and_eq_true_iff.mp hl).1
      rw [eq_of_beq this]
      exact List.mem_cons_self b bs
    · exact List.mem_cons_of_mem b (ih hs)

/-! ### The `evilMsg` family of accepted, pairwise-distinct messages -/

theorem alpha_char_facts :
    ∀ c ∈ alpha, (¬c = '<' ∧ ¬c = '>') ∧ isWsChar c = false ∧ ¬c = '.' ∧
      ¬Char.toLower c = '@' := by decide

theorem evilMsg_chars (i : Nat) :
    ∀ c ∈ (evilMsg i).data,
      (¬c = '<' ∧ ¬c = '>') ∧ isWsChar c = false ∧ ¬c = '.' ∧
        ¬Char.toLower c = '@' := by
  intro c hc
  have hcases : c = 'q' ∨ c = alpha.get ⟨i / 32 % 32, by simp [alpha]; omega⟩ ∨
      c = alpha.get ⟨i % 32, by simp [alpha]; omega⟩ := by
    simpa [evilMsg] using hc
  rcases hcases with rfl | rfl | rfl
  · exact ⟨⟨by decide, by decide⟩, by decide, by decide, by decide⟩
  · exact alpha_char_facts _ (List.get_mem _ _ _)
  · exact alpha_char_facts _ (List.get_mem _ _ _)

theorem clean_evilMsg (i : Nat) : clean (evilMsg i) = evilMsg i :=
  clean_eq_self _ (fun c hc => ⟨(evilMsg_chars i c hc).1, (evilMsg_chars i c hc).2.1⟩)

theorem evilMsg_length (i : Nat) : (evilMsg i).length = 3 := rfl

theorem gate_evilMsg (i : Nat) : gateAccepts [] "u" (evilMsg i) = true := by
  unfold gateAccepts
  have h2 : filenameLike (evilMsg i).data = false := by
    cases hfl : filenameLike (evilMsg i).data with
    | false => rfl
    | true =>
      exfalso
      have hdot := filenameLike_dot_mem _ hfl
      exact ((evilMsg_chars i '.' hdot).2.2.1) rfl
  have h3 : negativeKeywords.any
      (fun k => hasSub k.data (lowerStr (evilMsg i)).data) = false := by
    have hlow : (lowerStr (evilMsg i)).data.length = 3 := rfl
    have hscam : hasSub ("scam" : String).data (lowerStr (evilMsg i)).data = false := by
      cases hx : hasSub ("scam" : String).data (lowerStr (evilMsg i)).data with
      | false => rfl
      | true =>
        exfalso
        have := hasSub_length_le _ _ hx
        rw [hlow] at this
        simp at this
    have hfake : hasSub ("fake" : String).data (lowerStr (evilMsg i)).data = false := by
      cases hx : hasSub ("fake" : String).data (lowerStr (evilMsg i)).data with
      | false => rfl
      | true =>
        exfalso
        have := hasSub_length_le _ _ hx
        rw [hlow] at this
        simp at this
    have hat : hasSub ("@" : String).data (lowerStr (evilMsg i)).data = false := by
      cases hx : hasSub ("@" : String).data (lowerStr (evilMsg i)).data with
      | false => rfl
      | true =>
        exfalso
        have hmem := hasSub_singleton_mem '@' _ hx
        have : '@' ∈ (evilMsg i).data.map Char.toLower := hmem
        rw [List.mem_map] at this
        obtain ⟨c, hc, hlc⟩ := this
        exact ((evilMsg_chars i c hc).2.2.2) hlc
    show (hasSub ("scam" : String).data _ || (hasSub ("@" : String).data _ ||
      (hasSub ("fake" : String).data _ || false))) = false
    rw [hscam, hat, hfake]
    rfl
  have h4 : (evilMsg i == "") = false := by
    rw [beq_eq_false_iff_ne]
    intro hcontra
    have := congrArg String.length hcontra
    rw [evilMsg_length] at this
    cases this
  have h5 : lengthCheck (evilMsg i) = true := rfl
  rw [h2, h3, h4, h5]
  rfl

theorem evilMsg_inj (i j : Nat) (hi : i < 1024) (hj : j < 1024)
    (h : evilMsg i = evilMsg j) : i = j := by
  have hd := String.ext_iff.mp h
  simp only [evilMsg, List.cons.injEq] at hd
  obtain ⟨-, h1, h2, -⟩ := hd
  have hnd : alpha.Nodup := by decide
  have e1 := (hnd.get_inj_iff).mp h1
  have e2 := (hnd.get_inj_iff).mp h2
  have v1 : i / 32 % 32 = j / 32 % 32 := by simpa using e1
  have v2 : i % 32 = j % 32 := by simpa using e2
  have d1 : i / 32 < 32 := (Nat.div_lt_iff_lt_mul (by omega)).mpr (by omega)
  have d2 : j / 32 < 32 := (Nat.div_lt_iff_lt_mul (by omega)).mpr (by omega)
  rw [Nat.mod_eq_of_lt d1, Nat.mod_eq_of_lt d2] at v1
  have hi32 := Nat.div_add_mod i 32
  have hj32 := Nat.div_add_mod j 32
  omega

/-! ### Evolution of the dedup set under fresh accepted submissions -/

theorem runSeen_fresh (fs : List Forwarder) (ai : AiOutcome)
    (tts : String → Option String) :
    ∀ (ms : List String) (seen : List String),
      (∀ m ∈ ms, clean m = m ∧ gateAccepts [] "u" m = true) →
      (∀ m ∈ ms, ("u" ++ m) ∉ seen) →
      (ms.map (fun m => "u" ++ m)).Nodup →
      seen.length + ms.length ≤ 1000 →
      ms.foldl (procStep fs ai tts) seen = seen ++ ms.map (fun m => "u" ++ m) := by
  intro ms
  induction ms with
  | nil => intro seen _ _ _ _; simp
  | cons m ms ih =>
    intro seen hcond hfresh hnodup hlen
    obtain ⟨hcm, hgate⟩ := hcond m (List.mem_cons_self m ms)
    have hcu : clean "u" = "u" := by decide
    have hnotmem : ("u" ++ m) ∉ seen := hfresh m (List.mem_cons_self m ms)
    have hacc : gateAccepts seen (clean "u") (clean m) = true := by
      rw [hcu, hcm]
      exact gateAccepts_of_nil seen "u" m hnotmem hgate
    have hstep : procStep fs ai tts seen m = seen ++ ["u" ++ m] := by
      unfold procStep
      rw [processChat_seen_of_accepted "u" m [] seen fs ai tts hacc, hcu, hcm]
      exact seenAdd_small seen _ hnotmem (by simp at hlen; omega)
    rw [List.foldl_cons, hstep]
    have hnodup2 : (ms.map (fun m => "u" ++ m)).Nodup := by
      rw [List.map_cons, List.nodup_cons] at hnodup
      exact hnodup.2
    have hum_not : ("u" ++ m) ∉ ms.map (fun x => "u" ++ x) := by
      rw [List.map_cons, List.nodup_cons] at hnodup
      exact hnodup.1
    have hfresh2 : ∀ m' ∈ ms, ("u" ++ m') ∉ seen ++ ["u" ++ m] := by
      intro m' hm'
      rw [List.mem_append, List.mem_singleton]
      rintro (hin | heq)
      · exact hfresh m' (List.mem_cons_of_mem m hm') hin
      · apply hum_not
        rw [← heq]
        exact List.mem_map_of_mem _ hm'
    have hlen2 : (seen ++ ["u" ++ m]).length + ms.length ≤ 1000 := by
      simp only [List.length_append, List.length_cons, List.length_nil]
      simp only [List.length_cons] at hlen
      omega
    rw [ih (seen ++ ["u" ++ m])
      (fun m' hm' => hcond m' (List.mem_cons_of_mem m hm')) hfresh2 hnodup2 hlen2]
    simp

theorem map_u_evil_nodup (n : Nat) (hn : n ≤ 1024) :
    (((List.range n).map evilMsg).map (fun m => "u" ++ m)).Nodup := by
  rw [List.map_map]
  apply List.Nodup.map_on
  · intro i hi j hj heq
    rw [List.mem_range] at hi hj
    have := string_append_left_cancel "u" (evilMsg i) (evilMsg j) heq
    exact evilMsg_inj i j (by omega) (by omega) this
  · exact List.nodup_range n

theorem u_evil_ne_uhi (i : Nat) : ("u" ++ evilMsg i) ≠ "uhi" := by
  intro h
  have h4 : ("u" ++ evilMsg i).length = 4 := rfl
  have h3 : ("uhi" : String).length = 3 := rfl
  rw [h] at h4
  rw [h3] at h4
  cases h4

/-! ### Claim C5: dedup suppression, eviction, and room-switch reset -/

/-- C5 counterexample: after `("u", "hi")` is accepted once, an
immediate resubmission is suppressed (first conjunct) — but after 1000
further distinct accepted submissions, and with NO room switch in
between, the identifier `"uhi"` has been evicted from the capped
`alreadyExistChats` set and the very same pair is accepted again
(second conjunct), so the suppression does not persist until a room
switch. -/
theorem dedup_evicted_before_room_switch_cex :
    gateAccepts ((processChat "u" "hi" [] [] demoForwarders demoAi demoTts).seen)
        (clean "u") (clean "hi") = false ∧
    gateAccepts
        (((List.range 1000).map evilMsg).foldl (procStep demoForwarders demoAi demoTts)
          ((processChat "u" "hi" [] [] demoForwarders demoAi demoTts).seen))
        (clean "u") (clean "hi") = true := by
  have h0 : (processChat "u" "hi" [] [] demoForwarders demoAi demoTts).seen = ["uhi"] := by
    decide
  constructor
  · rw [h0]
    decide
  · rw [h0]
    have h1000 : List.range 1000 = List.range 999 ++ [999] := by
      rw [show (1000 : Nat) = 999 + 1 from rfl, List.range_succ]
    rw [h1000, List.map_append, List.foldl_append]
    have hcond : ∀ m ∈ (List.range 999).map evilMsg,
        clean m = m ∧ gateAccepts [] "u" m = true := by
      intro m hm
      rw [List.mem_map] at hm
      obtain ⟨i, _, rfl⟩ := hm
      exact ⟨clean_evilMsg i, gate_evilMsg i⟩
    have hfresh : ∀ m ∈ (List.range 999).map evilMsg,
        ("u" ++ m) ∉ (["uhi"] : List String) := by
      intro m hm
      rw [List.mem_map] at hm
      obtain ⟨i, _, rfl⟩ := hm
      rw [List.mem_singleton]
      exact u_evil_ne_uhi i
    have hlen : (["uhi"] : List String).length +
        ((List.range 999).map evilMsg).length ≤ 1000 := by simp
    rw [runSeen_fresh demoForwarders demoAi demoTts _ _ hcond hfresh
      (map_u_evil_nodup 999 (by omega)) hlen]
    simp only [List.map_cons, List.map_nil, List.foldl_cons, List.foldl_nil]
    set X : List String :=
      ["uhi"] ++ ((List.range 999).map evilMsg).map (fun m => "u" ++ m) with hX
    have hcu : clean "u" = "u" := by decide
    have hchi : clean "hi" = "hi" := by decide
    have hfresh999 : ("u" ++ evilMsg 999) ∉ X := by
      rw [hX, List.mem_append, List.mem_singleton]
      rintro (heq | hin)
      · exact u_evil_ne_uhi 999 heq
      · simp only [List.map_map, List.mem_map, Function.comp] at hin
        obtain ⟨i, hi, heq⟩ := hin
        rw [List.mem_range] at hi
        have hinj := string_append_left_cancel "u" _ _ heq
        have := evilMsg_inj i 999 (by omega) (by omega) hinj
        omega
    have hacc : gateAccepts X (clean "u") (clean (evilMsg 999)) = true := by
      rw [hcu, clean_evilMsg]
      exact gateAccepts_of_nil X "u" (evilMsg 999) hfresh999 (gate_evilMsg 999)
    have hstep : procStep demoForwarders demoAi demoTts X (evilMsg 999) =
        ((List.range 999).map evilMsg).map (fun m => "u" ++ m) ++ ["u" ++ evilMsg 999] := by
      unfold procStep
      rw [processChat_seen_of_accepted _ _ _ _ _ _ _ hacc, hcu, clean_evilMsg]
      rw [seenAdd_of_not_mem X _ hfresh999]
      have hXlen : X.length = 1000 := by
        rw [hX]
        simp
      rw [hXlen, if_pos (show (1000 : Nat) < 1000 + 1 by omega)]
      rw [hX]
      rfl
    rw [hstep, hcu, hchi]
    apply gateAccepts_of_nil
    · rw [List.mem_append, List.mem_singleton]
      rintro (hin | heq)
      · simp only [List.map_map, List.mem_map, Function.comp] at hin
        obtain ⟨i, hi, heq⟩ := hin
        have hinj := string_append_left_cancel "u" _ _ heq
        have hl := congrArg String.length hinj
        rw [evilMsg_length] at hl
        have h2 : ("hi" : String).length = 2 := rfl
        rw [h2] at hl
        cases hl
      · have hinj := string_append_left_cancel "u" _ _ heq
        have hl := congrArg String.length hinj
        rw [evilMsg_length] at hl
        have h2 : ("hi" : String).length = 2 := rfl
        rw [h2] at hl
        cases hl
    · decide

/-- C5 amended: once a `(username, message)` pair is accepted, its
identifier is recorded into the dedup set before any downstream
processing (it is recorded even when the forwarder lookup fails and the
job returns early with no broadcast), so an immediate resubmission of
the identical pair is suppressed; a room switch clears the dedup record
and makes the pair acceptable again.  (The record is NOT guaranteed to
persist until a room switch: the set is capped at 1000 entries with
oldest-first eviction — see the counterexample.) -/
theorem dedup_suppression_and_reset (u m : String) (hist : List ChatTurn)
    (seen : List String) (fs : List Forwarder) (ai : AiOutcome)
    (tts : String → Option String) (st : CoreState) (mint : String)
    (hlen : seen.length ≤ 1000) (hmint : ¬mint = "")
    (hacc : gateAccepts seen (clean u) (clean m) = true) :
    gateAccepts (processChat u m hist seen fs ai tts).seen (clean u) (clean m) = false ∧
    processChat u m hist seen [] ai tts =
      { broadcast := none, seen := seenAdd seen (clean u ++ clean m), forwarders := [] } ∧
    gateAccepts (switchRoom st mint).seen (clean u) (clean m) = true := by
  refine ⟨?_, ?_, ?_⟩
  · rw [processChat_seen_of_accepted u m hist seen fs ai tts hacc]
    apply gateAccepts_false_of_mem
    exact seenAdd_mem_self seen _ hlen
  · unfold processChat
    have hsel : getSelectedForwarderUrl [] = none := rfl
    simp [hacc, hsel]
  · have hseen0 : (switchRoom st mint).seen = [] := by
      unfold switchRoom
      rw [if_neg (by simp [hmint])]
      split
      · rfl
      · rfl
    rw [hseen0]
    have hnomem : (clean u ++ clean m) ∉ ([] : List String) := by
      intro hcontra
      cases hcontra
    exact gateAccepts_of_nil [] _ _ hnomem (gateAccepts_nil_of seen _ _ hacc)

/-- Witness for the amended C5: the pair `("u", "hi")` is accepted on an
empty dedup set, an immediate resubmission is suppressed, the
identifier is recorded even with an empty registry, and a switch to a
fresh room makes the pair acceptable again. -/
theorem dedup_suppression_and_reset_witness :
    (([] : List String).length ≤ 1000) ∧
    ¬("room2" : String) = "" ∧
    gateAccepts [] (clean "u") (clean "hi") = true ∧
    gateAccepts (processChat "u" "hi" [] [] demoForwarders demoAi demoTts).seen
        (clean "u") (clean "hi") = false ∧
    processChat "u" "hi" [] [] [] demoAi demoTts =
      { broadcast := none, seen := seenAdd [] (clean "u" ++ clean "hi"),
        forwarders := [] } ∧
    gateAccepts (switchRoom demoRoomState "room2").seen (clean "u") (clean "hi") = true := by
  refine ⟨by decide, by decide, by decide, ?_, ?_, ?_⟩
  · exact (dedup_suppression_and_reset "u" "hi" [] [] demoForwarders demoAi demoTts
      demoRoomState "room2" (by decide) (by decide) (by decide)).1
  · exact (dedup_suppression_and_reset "u" "hi" [] [] demoForwarders demoAi demoTts
      demoRoomState "room2" (by decide) (by decide) (by decide)).2.1
  · exact (dedup_suppression_and_reset "u" "hi" [] [] demoForwarders demoAi demoTts
      demoRoomState "room2" (by decide) (by decide) (by decide)).2.2
